import Mathlib

/-!
Verification of the repack line-transition repackaging pipeline
(repack/repack.py and repack/utils/utilities.py) against its
natural-language specification.

Modelling conventions:
* Python floats are modelled as rationals (exact arithmetic).
* A line-transition file is abstracted by its wavenumber sequence
  `getwn : ℕ → ℚ` together with its line count `nlines`, which is exactly
  the random-access interface the `lbl` class exposes
  (utilities.py, lines 202-287).
* The recursion in `lbl.bs` shrinks `hi - lo` at every step, so it is
  implemented structurally on a fuel argument initialised to `hi - lo`;
  the behaviour is independent of any larger fuel.  The recursion in
  `wnbalance` is *not* bounded by the code, so its model takes an explicit
  fuel argument and returns `none` when the fuel is exhausted (matching
  Python's recursion limit aborting the call).
* Nonnegative Python ints (file row indices and row counts) are modelled
  as ℕ; `int()` applied to a nonnegative float quotient is modelled by
  `ratTrunc` (truncation toward zero) on the exact rational quotient.
-/

/-- Model of the `lbl` record-source class (utilities.py line 202): a file
is abstracted by its row-indexed wavenumber sequence `getwn` and its
number of rows `nlines`. -/
structure lbl where
  getwn : ℕ → ℚ
  nlines : ℕ

instance : Inhabited lbl := ⟨⟨fun _ => 0, 0⟩⟩

/-- Fuel-indexed body of `lbl.bs` (utilities.py lines 228-262).  The checks
mirror the source order: the two saturation checks against the file's
global first and last wavenumbers, the end case with its tie-break, then
the halving step.  The fuel only guards the halving step; since every
halving strictly shrinks `hi - lo`, any fuel `≥ hi - lo` gives the
behaviour of the unbounded Python recursion. -/
def bsAux (l : lbl) (val : ℚ) : ℕ → ℕ → ℕ → ℕ
  | fuel, lo, hi =>
    if val ≤ l.getwn 0 then 0
    else if l.getwn (l.nlines - 1) ≤ val then l.nlines - 1
    else if hi - lo ≤ 1 then
      if |val - l.getwn hi| < |val - l.getwn lo| then hi else lo
    else
      match fuel with
      | 0 => lo
      | fuel' + 1 =>
        if val < l.getwn ((hi + lo) / 2) then bsAux l val fuel' lo ((hi + lo) / 2)
        else bsAux l val fuel' ((hi + lo) / 2) hi
termination_by structural fuel => fuel

/-- Wavenumber binary search `lbl.bs` (utilities.py lines 228-262). -/
def lbl.bs (l : lbl) (val : ℚ) (lo hi : ℕ) : ℕ :=
  bsAux l val (hi - lo) lo hi

/-- Leftward widening loop of the driver (repack.py lines 223-224):
while i0 > 0 and getwn(i0-1) >= wnmin: i0 -= 1. -/
def widenLeft (l : lbl) (wnmin : ℚ) : ℕ → ℕ
  | 0 => 0
  | i + 1 => if wnmin ≤ l.getwn i then widenLeft l wnmin i else i + 1

/-- Fuel-indexed rightward widening loop of the driver (repack.py lines
227-228): while iN < nlines-1 and getwn(iN+1) <= wnmin: iN += 1.  The loop
increments `i` only while `i < nlines - 1`, so fuel `nlines - 1 - i`
suffices. -/
def widenRightAux (l : lbl) (wnmin : ℚ) : ℕ → ℕ → ℕ
  | 0, i => i
  | fuel + 1, i =>
    if i < l.nlines - 1 ∧ l.getwn (i + 1) ≤ wnmin then widenRightAux l wnmin fuel (i + 1)
    else i

/-- Rightward widening loop (repack.py lines 227-228); note the comparison
bound is `wnmin`, exactly as in the source. -/
def widenRight (l : lbl) (wnmin : ℚ) (i : ℕ) : ℕ :=
  widenRightAux l wnmin (l.nlines - 1 - i) i

/-- Initial in-window index of a source (repack.py lines 222-224):
`bs(wnmin, 0, nlines-1)` then widened leftward. -/
def istartOf (l : lbl) (wnmin : ℚ) : ℕ :=
  widenLeft l wnmin (l.bs wnmin 0 (l.nlines - 1))

/-- Final in-window index of a source (repack.py lines 226-228):
`bs(wnmax, i0, nlines-1)` then widened rightward with the `wnmin`
comparison. -/
def iNOf (l : lbl) (wnmin wnmax : ℚ) : ℕ :=
  widenRight l wnmin (l.bs wnmax (istartOf l wnmin) (l.nlines - 1))

/-- The `count` helper (utilities.py lines 398-417): sums
`bs(wntarget, 0, nlines-1)` over all sources. -/
def count (lbls : List lbl) (wntarget : ℚ) : ℕ :=
  (lbls.map (fun l => l.bs wntarget 0 (l.nlines - 1))).sum

/-- The `wnbalance` bisection (utilities.py lines 359-395) with an explicit
fuel argument for its (unbounded) recursion: `none` models a recursion
that has not returned within `fuel` nested calls. -/
def wnbalance (lbls : List lbl) : ℚ → ℚ → ℚ → ℤ → ℚ → ℕ → Option ℚ
  | _, _, _, _, _, 0 => none
  | wnmin, wnmax, targetsize, zero, tol, fuel + 1 =>
    let wntarget : ℚ := (1 / 2) * (wnmax + wnmin)
    let ntarget : ℕ := count lbls wntarget
    if |(ntarget : ℚ) - (zero : ℚ) - targetsize| < tol * targetsize then some wntarget
    else if (ntarget : ℚ) - (zero : ℚ) < targetsize then
      wnbalance lbls wntarget wnmax targetsize zero tol fuel
    else
      wnbalance lbls wnmin wntarget targetsize zero tol fuel

/-- Python `int()` on a float value: truncation toward zero, modelled on the
exact rational value. -/
def ratTrunc (q : ℚ) : ℤ :=
  if 0 ≤ q then ⌊q⌋ else ⌈q⌉

/-- Per-source in-window line count `nlines[k] = iN - i0`
(repack.py line 230).  (On the sorted inputs considered by the claims
`istartOf ≤ iNOf`, so ℕ subtraction agrees with Python's int
subtraction.) -/
def nlinesOf (l : lbl) (wnmin wnmax : ℚ) : ℕ :=
  iNOf l wnmin wnmax - istartOf l wnmin

/-- Total in-window line count of a group, `np.sum(nlines)`
(repack.py line 233). -/
def sumNlines (lbls : List lbl) (wnmin wnmax : ℚ) : ℕ :=
  (lbls.map (fun l => nlinesOf l wnmin wnmax)).sum

/-- Number of chunks `nchunks = int(np.sum(nlines)/chunksize) + 1`
(repack.py line 233): float division then `int()` truncation. -/
def nchunksOf (lbls : List lbl) (wnmin wnmax : ℚ) (chunksize : ℕ) : ℕ :=
  (ratTrunc ((sumNlines lbls wnmin wnmax : ℚ) / (chunksize : ℚ))).toNat + 1

/-- One sample of `np.linspace(a, b, K+1)` assigned into an integer array
(repack.py line 241): the exact value `a + j·(b-a)/K`, truncated. -/
def linspaceTrunc (a b K j : ℕ) : ℕ :=
  (ratTrunc ((a : ℚ) + (j : ℚ) * (((b : ℚ) - (a : ℚ)) / (K : ℚ)))).toNat

/-- One intermediate chunk column (repack.py lines 248-249):
`chunk[k,n] = lbl[k].bs(wnchunk[n], chunk[k,n-1], chunk[k,nchunks])` for
every source index `k`. -/
def newColumn (lbls : List lbl) (w : ℚ) (prev colK : List ℕ) : List ℕ :=
  (List.range lbls.length).map
    (fun k => (lbls.getD k default).bs w (prev.getD k 0) (colK.getD k 0))

/-- The intermediate-boundary loop of the multi-file case (repack.py lines
245-249): for each remaining boundary, `zero = np.sum(chunk[:,n-1])`, then
`wnchunk[n] = wnbalance(...)` and the new column by per-source binary
search.  Fails (`none`) when the `wnbalance` recursion does not return. -/
def midCols (lbls : List lbl) (wnmax targetsize tol : ℚ) (colK : List ℕ) (fuel : ℕ) :
    ℚ → List ℕ → ℕ → Option (List (List ℕ))
  | _, _, 0 => some []
  | wPrev, prev, n + 1 =>
    match wnbalance lbls wPrev wnmax targetsize (prev.sum : ℤ) tol fuel with
    | none => none
    | some w =>
      match midCols lbls wnmax targetsize tol colK fuel w (newColumn lbls w prev colK) n with
      | none => none
      | some rest => some (newColumn lbls w prev colK :: rest)

/-- The chunk plan of one wavenumber-range group (repack.py lines 233-249),
as the list of chunk-boundary columns `chunk[:,0], ..., chunk[:,nchunks]`.
Single-source groups use the truncated linspace split; multi-source groups
use `wnbalance`-refined boundaries. -/
def chunkPlan (lbls : List lbl) (wnmin wnmax : ℚ) (chunksize fuel : ℕ) :
    Option (List (List ℕ)) :=
  let col0 : List ℕ :=
    (List.range lbls.length).map (fun k => istartOf (lbls.getD k default) wnmin)
  let colK : List ℕ :=
    (List.range lbls.length).map (fun k =>
      istartOf (lbls.getD k default) wnmin + nlinesOf (lbls.getD k default) wnmin wnmax)
  let K : ℕ := nchunksOf lbls wnmin wnmax chunksize
  if lbls.length = 1 then
    some ((List.range (K + 1)).map (fun j =>
      (List.range lbls.length).map (fun k =>
        linspaceTrunc (istartOf (lbls.getD k default) wnmin)
          (istartOf (lbls.getD k default) wnmin + nlinesOf (lbls.getD k default) wnmin wnmax)
          K j)))
  else
    (midCols lbls wnmax ((sumNlines lbls wnmin wnmax : ℚ) / (K : ℚ)) (1 / 100) colK fuel
        wnmin col0 (K - 1)).map
      (fun mids => (col0 :: mids) ++ [colK])

/-- Entry `chunk[k, n]` of a chunk plan given as a list of columns. -/
def colEntry (cols : List (List ℕ)) (n k : ℕ) : ℕ :=
  (cols.getD n []).getD k 0

/-- A source whose wavenumbers are sorted in non-decreasing order over its
rows (the well-formedness assumption under which the driver's binary
searches are meaningful). -/
def sortedLbl (l : lbl) : Prop :=
  ∀ j, j < l.nlines → ∀ i, i ≤ j → l.getwn i ≤ l.getwn j

/-- A source whose wavenumbers are strictly increasing over its rows. -/
def strictSortedLbl (l : lbl) : Prop :=
  ∀ j, j < l.nlines → ∀ i, i < j → l.getwn i < l.getwn j

instance (l : lbl) : Decidable (sortedLbl l) := by
  unfold sortedLbl; infer_instance

instance (l : lbl) : Decidable (strictSortedLbl l) := by
  unfold strictSortedLbl; infer_instance

/-- Fatal-error exit path of the driver `repack` (repack.py lines 135-138
and 151-154): on an invalid `dbtype`, and on input files naming more than
one molecule, the code prints an error and calls `sys.exit(0)`.  The
result is `some code` when the driver terminates on one of these two
fatal errors with process exit status `code`, and `none` when it
continues. -/
def repackErrorExit (dbtype : String) (mol : List String) : Option ℕ :=
  if ¬ (dbtype = "hitran" ∨ dbtype = "exomol") then some 0
  else if 1 < mol.dedup.length then some 0
  else none

/-- Length of `file.readline()` on a file with the given bytes: everything
up to and including the first newline, or the whole content when there is
none (utilities.py line 221). -/
def firstLineLen : List Char → ℕ
  | [] => 0
  | ch :: rest => if ch = '\n' then 1 else 1 + firstLineLen rest

/-- The row-length/row-count measurement of `lbl.__init__` (utilities.py
lines 218-226): `llen = len(readline())`, `nlines = int(size/llen)`.
There is no divisibility check; the constructor succeeds on every
content. -/
def lblOpen (content : List Char) : ℕ × ℕ :=
  (firstLineLen content, content.length / firstLineLen content)

/-- Abstract physical functions and constants entering the classifier pass
(scipy's `exp`, `sqrt`, `pi`, `c` and the repack constants `C2`, `kB`,
`amu`).  The claims about the classifier's structure hold for every
interpretation of these. -/
structure Phys where
  exp : ℚ → ℚ
  sqrt : ℚ → ℚ
  pi : ℚ
  C2 : ℚ
  kB : ℚ
  amu : ℚ
  c : ℚ

/-- Per-transition line strength of the classifier (repack.py lines
275-276 and 294-295):
`s = gf·iratio/Z · exp(-C2·Elow/T) · (1 - exp(-C2·wn/T))`. -/
def sline (ph : Phys) (gf irat Z Elow wn T : ℚ) : ℚ :=
  gf * irat / Z * ph.exp (-(ph.C2 * Elow) / T) * (1 - ph.exp (-(ph.C2 * wn) / T))

/-- Doppler half-width (repack.py lines 278 and 296):
`alphad = wn/(100·c) · sqrt(2·kB·T/(imass·amu))`. -/
def alphad (ph : Phys) (imass wn T : ℚ) : ℚ :=
  wn / (100 * ph.c) * ph.sqrt (2 * ph.kB * T / (imass * ph.amu))

/-- The dominance metric handed to the low-temperature `u.flag` call
(repack.py line 287): `s/alphad`. -/
def flagArgLow (ph : Phys) (gf irat Z Elow wn imass tmin : ℚ) : ℚ :=
  sline ph gf irat Z Elow wn tmin / alphad ph imass wn tmin

/-- The dominance metric handed to the high-temperature `u.flag` call
(repack.py line 300): `s/alphad/np.sqrt(np.pi)`. -/
def flagArgHigh (ph : Phys) (gf irat Z Elow wn imass tmax : ℚ) : ℚ :=
  sline ph gf irat Z Elow wn tmax / alphad ph imass wn tmax / ph.sqrt ph.pi

/-- The final per-chunk flag update `flag |= flag2` (repack.py line 304):
pointwise disjunction of the two per-temperature flags. -/
def finalFlag (flagLow flagHigh : List Bool) : List Bool :=
  List.zipWith or flagLow flagHigh

/-- The indices written to the LBL binary stream for one chunk
(repack.py lines 319-322): `indices = np.arange(len(wn))[flag]`, each
written once in order. -/
def lblIndices (flag : List Bool) : List ℕ :=
  (List.range flag.length).filter (fun m => flag.getD m false)

/-- The indices handed to the continuum accumulator in one call
(repack.py line 317): the transitions with `~flag`. -/
def contIndices (flag : List Bool) : List ℕ :=
  (List.range flag.length).filter (fun m => ! flag.getD m false)

/-- The per-temperature continuum-accumulator calls of one chunk
(repack.py lines 309-317): one call per temperature sample, each with the
weak-line indices. -/
def contCalls (flag : List Bool) (ntemp : ℕ) : List (List ℕ) :=
  (List.range ntemp).map (fun _ => contIndices flag)

/-- Demonstration source with `getwn i = i + 1` and four rows. -/
def lblDemo : lbl :=
  ⟨fun i => (i : ℚ) + 1, 4⟩

/-- Two identical sources of eight rows, all at wavenumber 50: a tie-heavy
distribution on which the `wnbalance` tolerance test fails at every
midpoint. -/
def tiedSrc : lbl :=
  ⟨fun _ => 50, 8⟩

/-- The tied two-source group fed to `wnbalance` in claim C2. -/
def tiedLbls : List lbl :=
  [tiedSrc, tiedSrc]

/-- Concrete interpretation of the physical functions used as a witness
input. -/
def physDemo : Phys :=
  ⟨id, id, 4, 1, 1, 1, 1⟩

/-- Two copies of the demonstration source, forming a multi-file group. -/
def demoLbls : List lbl := [lblDemo, lblDemo]

/-- The chunk plan the model computes for `demoLbls` on window `[1/2, 9/2]`
with chunk size 3. -/
def demoCols : List (List ℕ) := [[0, 0], [1, 1], [2, 2], [3, 3]]

/-! ### C1: exit status on fatal driver errors -/

/-- C1: the spec demands a non-zero exit code on every fatal driver error,
but the driver calls `sys.exit(0)` both on an invalid `dbtype`
(repack.py line 138) and on multi-molecule input (repack.py line 154), so
the process terminates with exit status 0 on these fatal errors. -/
theorem repack_fatal_exit_code_zero :
    repackErrorExit "foo" ["H2O"] = some 0 ∧
    repackErrorExit "exomol" ["H2O", "CO2"] = some 0 := by
  decide

/-! ### C5: no row-length divisibility check on open -/

/-- C5 counterexample: a 5-byte file whose first line is 3 bytes long
(size not a multiple of the measured row length) opens successfully with
`llen = 3` and `nlines = 1`; no fatal error is raised and the invariant
`file_size mod L = 0` fails after open. -/
theorem lblOpen_no_divisibility_check :
    lblOpen "ab\nXY".toList = (3, 1) ∧ "ab\nXY".toList.length % 3 ≠ 0 := by
  decide

/-- C5 amended: opening a record source performs no divisibility check; it
measures `llen` from the first line and sets `nlines` to the truncated
quotient, so `nlines·llen ≤ size < (nlines+1)·llen` and any trailing
partial row is silently ignored. -/
theorem lblOpen_truncates (content : List Char) (h : 0 < firstLineLen content) :
    (lblOpen content).2 * (lblOpen content).1 ≤ content.length ∧
    content.length < ((lblOpen content).2 + 1) * (lblOpen content).1 := by
  unfold lblOpen
  refine ⟨Nat.div_mul_le_self _ _, ?_⟩
  have h1 := Nat.div_add_mod content.length (firstLineLen content)
  have h2 := Nat.mod_lt content.length h
  calc content.length
      = firstLineLen content * (content.length / firstLineLen content)
          + content.length % firstLineLen content := h1.symm
    _ < firstLineLen content * (content.length / firstLineLen content)
          + firstLineLen content := Nat.add_lt_add_left h2 _
    _ = firstLineLen content * (content.length / firstLineLen content + 1) :=
          (Nat.mul_succ _ _).symm
    _ = (content.length / firstLineLen content + 1) * firstLineLen content :=
          Nat.mul_comm _ _

/-- C5 amended, witness: the amended statement evaluated on the concrete
5-byte file. -/
theorem lblOpen_truncates_witness :
    0 < firstLineLen "ab\nXY".toList ∧
    ((lblOpen "ab\nXY".toList).2 * (lblOpen "ab\nXY".toList).1 ≤ "ab\nXY".toList.length ∧
     "ab\nXY".toList.length <
       ((lblOpen "ab\nXY".toList).2 + 1) * (lblOpen "ab\nXY".toList).1) :=
  ⟨by decide, lblOpen_truncates "ab\nXY".toList (by decide)⟩

/-! ### C10: binary-search saturation at the global file ends -/

/-- C10: `lbl.bs` returns index 0 whenever `val ≤ getwn 0` and index
`nlines - 1` whenever `getwn (nlines-1) ≤ val`, regardless of the
requested bounds `lo`, `hi` (utilities.py lines 246-250); on the
demonstration source the returned index 0 lies below `lo = 2` and the
returned index 3 lies above `hi = 1`. -/
theorem bs_saturation (l : lbl) (val : ℚ) (lo hi : ℕ) :
    (val ≤ l.getwn 0 → l.bs val lo hi = 0) ∧
    (l.getwn 0 < val → l.getwn (l.nlines - 1) ≤ val → l.bs val lo hi = l.nlines - 1) ∧
    lblDemo.bs (1 / 2) 2 3 = 0 ∧ lblDemo.bs 99 0 1 = 3 := by
  refine ⟨fun h => ?_, fun h0 h1 => ?_, by with_unfolding_all decide,
    by with_unfolding_all decide⟩
  · unfold lbl.bs bsAux
    rw [if_pos h]
  · unfold lbl.bs bsAux
    rw [if_neg (not_le.mpr h0), if_pos h1]

/-- C10 witness: the saturation branches of `bs_saturation` instantiated on
the demonstration source with out-of-interval bounds. -/
theorem bs_saturation_witness :
    lblDemo.bs (3 / 4) 1 2 = 0 ∧ lblDemo.bs 77 1 2 = 3 :=
  ⟨(bs_saturation lblDemo (3 / 4) 1 2).1 (by with_unfolding_all decide),
   (bs_saturation lblDemo 77 1 2).2.1 (by with_unfolding_all decide)
     (by with_unfolding_all decide)⟩

/-! ### C2: the balancer bisection has no recursion-depth cap -/

/-- Value of `count` on the tied two-source group: every midpoint sees
either 0 or 14 lines to its left. -/
theorem count_tied (m : ℚ) : count tiedLbls m = if m ≤ 50 then 0 else 14 := by
  by_cases hm : m ≤ 50
  · simp [count, tiedLbls, tiedSrc, lbl.bs, bsAux, hm]
  · simp [count, tiedLbls, tiedSrc, lbl.bs, bsAux, hm, le_of_lt (not_le.mp hm)]

/-- C2 counterexample: on the tied group (total in-window count 14, target
14/3, tolerance 1/100) the bisection has not returned after 10 nested
calls, although `⌈log₂ 14⌉ = 4`; the claimed stop at recursion depth
`⌈log₂ N_total⌉` does not exist in the code. -/
theorem wnbalance_depth_cap_counterexample :
    wnbalance tiedLbls 0 100 (14 / 3) 0 (1 / 100) 10 = none ∧ Nat.clog 2 14 = 4 := by
  with_unfolding_all decide

/-- C2 amended: `wnbalance` returns only when the tolerance test succeeds
at a bisection midpoint; there is no recursion-depth cap, and on
tie-heavy distributions where the tolerance is never met (the tied group,
any starting interval) the recursion does not terminate at any depth. -/
theorem wnbalance_tied_never_terminates :
    ∀ (fuel : ℕ) (lo hi : ℚ), wnbalance tiedLbls lo hi (14 / 3) 0 (1 / 100) fuel = none := by
  intro fuel
  induction fuel with
  | zero => intro lo hi; rfl
  | succ n ih =>
    intro lo hi
    have hc := count_tied ((1 / 2) * (hi + lo))
    simp only [wnbalance]
    rcases le_or_lt ((1 / 2) * (hi + lo)) 50 with h | h
    · rw [if_pos h] at hc
      rw [hc, if_neg (by norm_num [abs_of_nonneg]), if_pos (by norm_num)]
      exact ih _ _
    · rw [if_neg (not_le.mpr h)] at hc
      rw [hc, if_neg (by norm_num [abs_of_nonneg]), if_neg (by norm_num)]
      exact ih _ _

/-! ### C3: the √π asymmetry between the two classifier passes -/

/-- C3: the dominance metric handed to the low-temperature `u.flag` call is
exactly `S/α` — multiplying it back by `α` recovers `S` with no √π factor —
while the metric handed to the high-temperature call is `S/(α·√π)`
(repack.py lines 287 and 300); only the high-temperature pass divides
by √π.  The statement holds for every interpretation of the physical
functions and constants. -/
theorem flag_metric_sqrtpi_asymmetry (ph : Phys) (gf irat Z Elow wn imass tmin tmax : ℚ)
    (hlo : alphad ph imass wn tmin ≠ 0) (hhi : alphad ph imass wn tmax ≠ 0)
    (hpi : ph.sqrt ph.pi ≠ 0) :
    flagArgLow ph gf irat Z Elow wn imass tmin * alphad ph imass wn tmin
      = sline ph gf irat Z Elow wn tmin ∧
    flagArgHigh ph gf irat Z Elow wn imass tmax * (alphad ph imass wn tmax * ph.sqrt ph.pi)
      = sline ph gf irat Z Elow wn tmax := by
  unfold flagArgLow flagArgHigh
  constructor
  · exact div_mul_cancel₀ _ hlo
  · field_simp

/-- C3 witness: `flag_metric_sqrtpi_asymmetry` evaluated at a concrete
interpretation and concrete transition data. -/
theorem flag_metric_sqrtpi_asymmetry_witness :
    flagArgLow physDemo 1 1 1 1 1 1 300 * alphad physDemo 1 1 300
      = sline physDemo 1 1 1 1 1 300 ∧
    flagArgHigh physDemo 1 1 1 1 1 1 1000 * (alphad physDemo 1 1 1000 * physDemo.sqrt physDemo.pi)
      = sline physDemo 1 1 1 1 1 1000 :=
  flag_metric_sqrtpi_asymmetry physDemo 1 1 1 1 1 1 300 1000
    (by with_unfolding_all decide) (by with_unfolding_all decide)
    (by with_unfolding_all decide)

/-! ### C4: union flag, single emission, single accumulation -/

/-- Count of an index in a filtered range. -/
theorem count_range_filter (p : ℕ → Bool) (n m : ℕ) :
    ((List.range n).filter p).count m = if m < n ∧ p m then 1 else 0 := by
  by_cases h : m < n ∧ p m
  · rw [if_pos h]
    exact List.count_eq_one_of_mem ((List.nodup_range n).filter p)
      (List.mem_filter.mpr ⟨List.mem_range.mpr h.1, h.2⟩)
  · rw [if_neg h]
    refine List.count_eq_zero.mpr fun hm => ?_
    rcases List.mem_filter.mp hm with ⟨h1, h2⟩
    exact h ⟨List.mem_range.mp h1, h2⟩

/-- C4: the final strong flag is the pointwise disjunction of the two
per-temperature flags (repack.py line 304); every finally-strong
transition index is written to the LBL stream exactly once (lines
319-322); every finally-weak transition index is handed to the continuum
accumulator exactly once per temperature sample (lines 309-317); and no
index is both emitted and accumulated. -/
theorem strong_weak_partition (fl fh : List Bool) (ntemp m : ℕ)
    (hlen : fh.length = fl.length) (hm : m < fl.length) :
    (finalFlag fl fh).getD m false = (fl.getD m false || fh.getD m false) ∧
    (lblIndices (finalFlag fl fh)).count m
      = (if (finalFlag fl fh).getD m false then 1 else 0) ∧
    (∀ t, t < ntemp →
      ((contCalls (finalFlag fl fh) ntemp).getD t []).count m
        = (if (finalFlag fl fh).getD m false then 0 else 1)) ∧
    ¬ (m ∈ lblIndices (finalFlag fl fh) ∧ m ∈ contIndices (finalFlag fl fh)) := by
  have hF : (finalFlag fl fh).length = fl.length := by
    simp [finalFlag, List.length_zipWith, hlen]
  have hmF : m < (finalFlag fl fh).length := hF ▸ hm
  refine ⟨?_, ?_, ?_, ?_⟩
  · rw [List.getD_eq_getElem _ _ hmF, List.getD_eq_getElem _ _ hm,
      List.getD_eq_getElem _ _ (hlen ▸ hm)]
    simp [finalFlag]
  · rw [lblIndices, count_range_filter]
    by_cases hf : (finalFlag fl fh).getD m false
    · rw [if_pos ⟨hmF, hf⟩, if_pos hf]
    · rw [if_neg (fun hc => hf hc.2), if_neg hf]
  · intro t ht
    have hct : (contCalls (finalFlag fl fh) ntemp).getD t [] = contIndices (finalFlag fl fh) := by
      rw [contCalls, List.getD_eq_getElem _ _ (by simpa using ht)]
      simp
    rw [hct, contIndices, count_range_filter]
    by_cases hf : (finalFlag fl fh).getD m false
    · rw [if_pos hf, if_neg]
      rintro ⟨-, hc⟩
      rw [Bool.not_eq_true'] at hc
      rw [hf] at hc
      exact Bool.noConfusion hc
    · have hf' : (finalFlag fl fh).getD m false = false := by
        revert hf; cases (finalFlag fl fh).getD m false <;> simp
      rw [if_neg hf, if_pos ⟨hmF, by rw [Bool.not_eq_true', hf']⟩]
  · rintro ⟨h1, h2⟩
    have e1 := (List.mem_filter.mp h1).2
    have e2 := (List.mem_filter.mp h2).2
    simp at e1 e2
    exact absurd e1 (by simp [e2])

/-- C4 witness: `strong_weak_partition` on concrete flag vectors. -/
theorem strong_weak_partition_witness :
    (finalFlag [true, false] [false, false]).getD 1 false
      = (([true, false].getD 1 false) || ([false, false].getD 1 false)) ∧
    (lblIndices (finalFlag [true, false] [false, false])).count 1
      = (if (finalFlag [true, false] [false, false]).getD 1 false then 1 else 0) ∧
    (∀ t, t < 2 →
      ((contCalls (finalFlag [true, false] [false, false]) 2).getD t []).count 1
        = (if (finalFlag [true, false] [false, false]).getD 1 false then 0 else 1)) ∧
    ¬ (1 ∈ lblIndices (finalFlag [true, false] [false, false]) ∧
       1 ∈ contIndices (finalFlag [true, false] [false, false])) :=
  strong_weak_partition [true, false] [false, false] 2 1 (by decide) (by decide)

/-! ### Helper lemmas on the binary search and the widening loops -/

/-- Unfolding of `bsAux` at successor fuel. -/
theorem bsAux_succ (l : lbl) (val : ℚ) (f lo hi : ℕ) :
    bsAux l val (f + 1) lo hi =
      if val ≤ l.getwn 0 then 0
      else if l.getwn (l.nlines - 1) ≤ val then l.nlines - 1
      else if hi - lo ≤ 1 then
        if |val - l.getwn hi| < |val - l.getwn lo| then hi else lo
      else if val < l.getwn ((hi + lo) / 2) then bsAux l val f lo ((hi + lo) / 2)
      else bsAux l val f ((hi + lo) / 2) hi :=
  rfl

/-- Unfolding of `bsAux` at zero fuel. -/
theorem bsAux_zero (l : lbl) (val : ℚ) (lo hi : ℕ) :
    bsAux l val 0 lo hi =
      if val ≤ l.getwn 0 then 0
      else if l.getwn (l.nlines - 1) ≤ val then l.nlines - 1
      else if hi - lo ≤ 1 then
        if |val - l.getwn hi| < |val - l.getwn lo| then hi else lo
      else lo :=
  rfl

/-- Left saturation: any target at or below the first wavenumber returns 0. -/
theorem bsAux_of_le_first (l : lbl) (val : ℚ) (fuel lo hi : ℕ) (h : val ≤ l.getwn 0) :
    bsAux l val fuel lo hi = 0 := by
  cases fuel with
  | zero => rw [bsAux_zero, if_pos h]
  | succ f => rw [bsAux_succ, if_pos h]

/-- Right saturation: any target at or above the last wavenumber (but above
the first) returns `nlines - 1`. -/
theorem bsAux_of_ge_last (l : lbl) (val : ℚ) (fuel lo hi : ℕ)
    (h0 : l.getwn 0 < val) (h1 : l.getwn (l.nlines - 1) ≤ val) :
    bsAux l val fuel lo hi = l.nlines - 1 := by
  cases fuel with
  | zero => rw [bsAux_zero, if_neg (not_le.mpr h0), if_pos h1]
  | succ f => rw [bsAux_succ, if_neg (not_le.mpr h0), if_pos h1]

/-- The search result never exceeds `nlines - 1` when both bounds are within
the file. -/
theorem bsAux_le_last (l : lbl) (val : ℚ) :
    ∀ fuel lo hi, lo ≤ l.nlines - 1 → hi ≤ l.nlines - 1 →
      bsAux l val fuel lo hi ≤ l.nlines - 1 := by
  intro fuel
  induction fuel with
  | zero =>
    intro lo hi hlo hhi
    rw [bsAux_zero]
    split_ifs <;> omega
  | succ f ih =>
    intro lo hi hlo hhi
    rw [bsAux_succ]
    split_ifs with h1 h2 h3 h4 h5
    · omega
    · omega
    · omega
    · omega
    · exact ih lo ((hi + lo) / 2) hlo (by omega)
    · exact ih ((hi + lo) / 2) hi (by omega) hhi

/-- Without left saturation the search result is at least `lo`. -/
theorem bsAux_ge_lo (l : lbl) (val : ℚ) (h0 : l.getwn 0 < val) :
    ∀ fuel lo hi, lo ≤ hi → hi ≤ l.nlines - 1 →
      lo ≤ bsAux l val fuel lo hi := by
  intro fuel
  induction fuel with
  | zero =>
    intro lo hi hlh hhi
    rw [bsAux_zero]
    split_ifs with h1 h2 h3 h4 <;>
      first
        | exact absurd h1 (not_le.mpr h0)
        | omega
  | succ f ih =>
    intro lo hi hlh hhi
    rw [bsAux_succ]
    split_ifs with h1 h2 h3 h4 h5
    · exact absurd h1 (not_le.mpr h0)
    · omega
    · omega
    · omega
    · exact ih lo ((hi + lo) / 2) (by omega) (by omega)
    · exact le_trans (by omega : lo ≤ (hi + lo) / 2) (ih ((hi + lo) / 2) hi (by omega) hhi)

/-- Without right saturation the search result is at most `hi`. -/
theorem bsAux_le_hi (l : lbl) (val : ℚ) (hN : val < l.getwn (l.nlines - 1)) :
    ∀ fuel lo hi, lo ≤ hi → bsAux l val fuel lo hi ≤ hi := by
  intro fuel
  induction fuel with
  | zero =>
    intro lo hi hlh
    rw [bsAux_zero]
    split_ifs with h1 h2 h3 h4 <;>
      first
        | exact absurd h2 (not_le.mpr hN)
        | omega
  | succ f ih =>
    intro lo hi hlh
    rw [bsAux_succ]
    split_ifs with h1 h2 h3 h4 h5
    · omega
    · exact absurd h2 (not_le.mpr hN)
    · omega
    · omega
    · exact le_trans (ih lo ((hi + lo) / 2) (by omega)) (by omega)
    · exact ih ((hi + lo) / 2) hi (by omega)

/-- A nonzero search result implies the target is above the first
wavenumber. -/
theorem bsAux_ne_zero (l : lbl) (val : ℚ) (fuel lo hi : ℕ)
    (h : bsAux l val fuel lo hi ≠ 0) : l.getwn 0 < val := by
  by_contra hc
  exact h (bsAux_of_le_first l val fuel lo hi (not_lt.mp hc))

/-- The leftward widening only decreases the index. -/
theorem widenLeft_le (l : lbl) (w : ℚ) : ∀ s, widenLeft l w s ≤ s := by
  intro s
  induction s with
  | zero => exact le_refl 0
  | succ s ih =>
    rw [widenLeft]
    split_ifs
    · omega
    · omega

/-- Every index stepped over by the leftward widening satisfied the loop
condition `getwn j ≥ wnmin`. -/
theorem widenLeft_mem (l : lbl) (w : ℚ) :
    ∀ s j, widenLeft l w s ≤ j → j < s → w ≤ l.getwn j := by
  intro s
  induction s with
  | zero => omega
  | succ s ih =>
    intro j hj1 hj2
    rw [widenLeft] at hj1
    split_ifs at hj1 with h
    · rcases Nat.lt_succ_iff_lt_or_eq.mp hj2 with h' | h'
      · exact ih j hj1 h'
      · exact h' ▸ h
    · omega

/-- Stop condition of the leftward widening: a nonzero result has
`getwn (result - 1) < wnmin`. -/
theorem widenLeft_stop (l : lbl) (w : ℚ) :
    ∀ s, widenLeft l w s ≠ 0 → l.getwn (widenLeft l w s - 1) < w := by
  intro s
  induction s with
  | zero => intro h; exact absurd rfl h
  | succ s ih =>
    intro h
    rw [widenLeft] at h ⊢
    split_ifs at h ⊢ with hc
    · exact ih h
    · simpa using not_le.mp hc

/-- The rightward widening only increases the index. -/
theorem widenRightAux_ge (l : lbl) (w : ℚ) :
    ∀ fuel i, i ≤ widenRightAux l w fuel i := by
  intro fuel
  induction fuel with
  | zero => intro i; exact le_refl i
  | succ f ih =>
    intro i
    rw [widenRightAux]
    split_ifs
    · exact le_trans (by omega) (ih (i + 1))
    · exact le_refl i

/-- The rightward widening never exceeds `nlines - 1` when started at or
below it. -/
theorem widenRightAux_le_last (l : lbl) (w : ℚ) :
    ∀ fuel i, i ≤ l.nlines - 1 → widenRightAux l w fuel i ≤ l.nlines - 1 := by
  intro fuel
  induction fuel with
  | zero => intro i hi; exact hi
  | succ f ih =>
    intro i hi
    rw [widenRightAux]
    split_ifs with h
    · exact ih (i + 1) (by omega)
    · exact hi

/-- Every index stepped over by the rightward widening satisfied the loop
condition `getwn (j+1) ≤ wnmin` (and `j < nlines - 1`). -/
theorem widenRightAux_mem (l : lbl) (w : ℚ) :
    ∀ fuel i j, i ≤ j → j < widenRightAux l w fuel i →
      l.getwn (j + 1) ≤ w ∧ j < l.nlines - 1 := by
  intro fuel
  induction fuel with
  | zero =>
    intro i j hj1 hj2
    rw [widenRightAux] at hj2
    omega
  | succ f ih =>
    intro i j hj1 hj2
    rw [widenRightAux] at hj2
    split_ifs at hj2 with h
    · rcases Nat.lt_or_ge i j with h' | h'
      · exact ih (i + 1) j (by omega) hj2
      · have hji : j = i := by omega
        exact hji ▸ ⟨h.2, h.1⟩
    · omega

/-- Stop condition of the rightward widening, given adequate fuel: a result
below `nlines - 1` has `wnmin < getwn (result + 1)`. -/
theorem widenRightAux_stop (l : lbl) (w : ℚ) :
    ∀ fuel i, l.nlines - 1 - i ≤ fuel → widenRightAux l w fuel i < l.nlines - 1 →
      w < l.getwn (widenRightAux l w fuel i + 1) := by
  intro fuel
  induction fuel with
  | zero =>
    intro i hf hlt
    rw [widenRightAux] at hlt
    omega
  | succ f ih =>
    intro i hf hlt
    rw [widenRightAux] at hlt ⊢
    split_ifs at hlt ⊢ with h
    · exact ih (i + 1) (by omega) hlt
    · push_neg at h
      exact h hlt

/-! ### C6: idempotence of the wavenumber binary search -/

/-- Bracketing invariant of the binary search on a strictly increasing
source: when the target is the wavenumber of row `i`, lies strictly
between the first and last wavenumbers, and the interval `[lo, hi]`
brackets `i` with `lo ≤ i < hi`, the search returns `i`. -/
theorem bsAux_bracket (l : lbl) (i : ℕ) (hmono : strictSortedLbl l) (hn : 1 ≤ l.nlines)
    (h0 : l.getwn 0 < l.getwn i) (hN : l.getwn i < l.getwn (l.nlines - 1)) :
    ∀ fuel lo hi, hi - lo ≤ fuel → lo ≤ i → i < hi → hi ≤ l.nlines - 1 →
      bsAux l (l.getwn i) fuel lo hi = i := by
  intro fuel
  induction fuel with
  | zero => intro lo hi hf hlo hhi hbound; omega
  | succ f ih =>
    intro lo hi hf hlo hhi hbound
    rw [bsAux_succ, if_neg (not_le.mpr h0), if_neg (not_le.mpr hN)]
    by_cases hspan : hi - lo ≤ 1
    · have hieq : i = lo := by omega
      rw [if_pos hspan, if_neg, hieq]
      rw [hieq, sub_self, abs_zero]
      exact not_lt.mpr (abs_nonneg _)
    · rw [if_neg hspan]
      have hmlo : lo < (hi + lo) / 2 := by omega
      have hmhi : (hi + lo) / 2 < hi := by omega
      by_cases hmid : l.getwn i < l.getwn ((hi + lo) / 2)
      · rw [if_pos hmid]
        refine ih lo ((hi + lo) / 2) (by omega) hlo ?_ (by omega)
        by_contra hc
        push_neg at hc
        rcases Nat.lt_or_ge ((hi + lo) / 2) i with h' | h'
        · exact absurd hmid (not_lt.mpr (le_of_lt (hmono i (by omega) _ h')))
        · have : (hi + lo) / 2 = i := by omega
          exact absurd hmid (by rw [this]; exact lt_irrefl _)
      · rw [if_neg hmid]
        refine ih ((hi + lo) / 2) hi (by omega) ?_ hhi hbound
        by_contra hc
        push_neg at hc
        exact hmid (hmono ((hi + lo) / 2) (by omega) i hc)

/-- C6: on a source whose wavenumber sequence is strictly increasing, the
binary search is idempotent: `bs(getwn i, 0, nlines-1) = i` for every row
index `0 ≤ i ≤ nlines - 1` (utilities.py lines 228-262). -/
theorem bs_idempotent (l : lbl) (hmono : strictSortedLbl l) (hn : 1 ≤ l.nlines)
    (i : ℕ) (hi : i ≤ l.nlines - 1) :
    l.bs (l.getwn i) 0 (l.nlines - 1) = i := by
  unfold lbl.bs
  rcases Nat.eq_zero_or_pos i with rfl | hipos
  · exact bsAux_of_le_first l _ _ _ _ (le_refl _)
  · by_cases hlast : i = l.nlines - 1
    · rw [bsAux_of_ge_last l _ _ _ _ (hmono i (by omega) 0 hipos) (by rw [hlast])]
      exact hlast.symm
    · exact bsAux_bracket l i hmono hn (hmono i (by omega) 0 hipos)
        (hmono (l.nlines - 1) (by omega) i (by omega)) _ 0 (l.nlines - 1)
        (by omega) (by omega) (by omega) (le_refl _)

/-- C6 witness: idempotence at row 2 of the strictly increasing
demonstration source. -/
theorem bs_idempotent_witness :
    lblDemo.bs (lblDemo.getwn 2) 0 (lblDemo.nlines - 1) = 2 :=
  bs_idempotent lblDemo (by with_unfolding_all decide) (by decide) 2 (by decide)

/-! ### C7: the edge-widening comparisons of the driver -/

/-- C7: the driver widens the initial index leftward while
`getwn(i0-1) ≥ wnmin` and widens the final index rightward while
`getwn(iN+1) ≤ wnmin` — the rightward comparison is against `wnmin`, not
`wnmax` (repack.py lines 222-228).  Stated as the full characterisation of
`istartOf` and `iNOf`: every index stepped over and the stop conditions on
both sides, with `wnmin` as the bound of the rightward walk. -/
theorem window_widening_comparisons (l : lbl) (wnmin wnmax : ℚ) :
    istartOf l wnmin ≤ l.bs wnmin 0 (l.nlines - 1) ∧
    (∀ j, istartOf l wnmin ≤ j → j < l.bs wnmin 0 (l.nlines - 1) → wnmin ≤ l.getwn j) ∧
    (istartOf l wnmin ≠ 0 → l.getwn (istartOf l wnmin - 1) < wnmin) ∧
    l.bs wnmax (istartOf l wnmin) (l.nlines - 1) ≤ iNOf l wnmin wnmax ∧
    (∀ j, l.bs wnmax (istartOf l wnmin) (l.nlines - 1) ≤ j → j < iNOf l wnmin wnmax →
      l.getwn (j + 1) ≤ wnmin ∧ j < l.nlines - 1) ∧
    (iNOf l wnmin wnmax < l.nlines - 1 → wnmin < l.getwn (iNOf l wnmin wnmax + 1)) := by
  refine ⟨widenLeft_le l wnmin _, widenLeft_mem l wnmin _, widenLeft_stop l wnmin _,
    widenRightAux_ge l wnmin _ _, widenRightAux_mem l wnmin _ _, ?_⟩
  exact widenRightAux_stop l wnmin _ _ (le_refl _)

/-- C7 witness: the characterisation evaluated on the demonstration source
with window `[5/2, 4]`. -/
theorem window_widening_comparisons_witness :
    istartOf lblDemo (5 / 2) ≤ lblDemo.bs (5 / 2) 0 (lblDemo.nlines - 1) ∧
    (∀ j, istartOf lblDemo (5 / 2) ≤ j → j < lblDemo.bs (5 / 2) 0 (lblDemo.nlines - 1) →
      (5 / 2 : ℚ) ≤ lblDemo.getwn j) ∧
    (istartOf lblDemo (5 / 2) ≠ 0 → lblDemo.getwn (istartOf lblDemo (5 / 2) - 1) < 5 / 2) ∧
    lblDemo.bs 4 (istartOf lblDemo (5 / 2)) (lblDemo.nlines - 1) ≤ iNOf lblDemo (5 / 2) 4 ∧
    (∀ j, lblDemo.bs 4 (istartOf lblDemo (5 / 2)) (lblDemo.nlines - 1) ≤ j →
      j < iNOf lblDemo (5 / 2) 4 → lblDemo.getwn (j + 1) ≤ 5 / 2 ∧ j < lblDemo.nlines - 1) ∧
    (iNOf lblDemo (5 / 2) 4 < lblDemo.nlines - 1 →
      (5 / 2 : ℚ) < lblDemo.getwn (iNOf lblDemo (5 / 2) 4 + 1)) :=
  window_widening_comparisons lblDemo (5 / 2) 4

/-! ### Helper lemmas on the in-window index range and the balancer -/

/-- The widened initial index stays within the file. -/
theorem istart_le_last (l : lbl) (wnmin : ℚ) : istartOf l wnmin ≤ l.nlines - 1 := by
  unfold istartOf
  exact le_trans (widenLeft_le l wnmin _)
    (bsAux_le_last l wnmin _ 0 (l.nlines - 1) (by omega) (le_refl _))

/-- The widened final index stays within the file. -/
theorem iN_le_last (l : lbl) (wnmin wnmax : ℚ) : iNOf l wnmin wnmax ≤ l.nlines - 1 := by
  unfold iNOf widenRight
  exact widenRightAux_le_last l wnmin _ _
    (bsAux_le_last l wnmax _ _ _ (istart_le_last l wnmin) (le_refl _))

/-- The leftward widening started at index 0 stays at 0. -/
theorem widenLeft_zero (l : lbl) (w : ℚ) : widenLeft l w 0 = 0 := rfl

/-- A nonzero initial index implies `getwn 0 < wnmin`. -/
theorem istart_ne_zero (l : lbl) (wnmin : ℚ) (h : istartOf l wnmin ≠ 0) :
    l.getwn 0 < wnmin := by
  unfold istartOf at h
  have hb : l.bs wnmin 0 (l.nlines - 1) ≠ 0 := by
    intro hc
    rw [hc] at h
    exact h (widenLeft_zero l wnmin)
  exact bsAux_ne_zero l wnmin _ _ _ hb

/-- On any window with `wnmin < wnmax` the initial index does not exceed the
final index. -/
theorem istart_le_iN (l : lbl) (wnmin wnmax : ℚ) (hw : wnmin < wnmax) :
    istartOf l wnmin ≤ iNOf l wnmin wnmax := by
  unfold iNOf widenRight
  refine le_trans ?_ (widenRightAux_ge l wnmin _ _)
  by_cases h0 : l.getwn 0 < wnmax
  · exact bsAux_ge_lo l wnmax h0 _ _ _ (istart_le_last l wnmin) (le_refl _)
  · push_neg at h0
    have : istartOf l wnmin = 0 := by
      by_contra hne
      exact absurd (istart_ne_zero l wnmin hne) (not_lt.mpr (le_trans (le_of_lt hw) h0))
    rw [this]
    omega

/-- When some value between the last wavenumber and `wnmax` exists, the
final index saturates to the last row. -/
theorem iN_eq_last (l : lbl) (wnmin wnmax : ℚ) (hn : 1 ≤ l.nlines) (hsort : sortedLbl l)
    (v : ℚ) (hv1 : l.getwn (l.nlines - 1) ≤ v) (hv2 : v < wnmax) :
    iNOf l wnmin wnmax = l.nlines - 1 := by
  have h0N : l.getwn 0 ≤ l.getwn (l.nlines - 1) := hsort (l.nlines - 1) (by omega) 0 (by omega)
  have hb : l.bs wnmax (istartOf l wnmin) (l.nlines - 1) = l.nlines - 1 := by
    unfold lbl.bs
    exact bsAux_of_ge_last l wnmax _ _ _ (lt_of_le_of_lt (le_trans h0N hv1) hv2)
      (le_of_lt (lt_of_le_of_lt hv1 hv2))
  unfold iNOf widenRight
  rw [hb]
  have hge := widenRightAux_ge l wnmin (l.nlines - 1 - (l.nlines - 1)) (l.nlines - 1)
  have hle := widenRightAux_le_last l wnmin (l.nlines - 1 - (l.nlines - 1)) (l.nlines - 1)
    (le_refl _)
  omega

/-- Any boundary the balancer returns lies strictly inside the bisected
interval. -/
theorem wnbalance_range (lbls : List lbl) :
    ∀ (fuel : ℕ) (lo hi target : ℚ) (zero : ℤ) (tol w : ℚ), lo < hi →
      wnbalance lbls lo hi target zero tol fuel = some w → lo < w ∧ w < hi := by
  intro fuel
  induction fuel with
  | zero =>
    intro lo hi t z tol w hlh h
    exact Option.noConfusion h
  | succ f ih =>
    intro lo hi t z tol w hlh h
    simp only [wnbalance] at h
    have hmlo : lo < 1 / 2 * (hi + lo) := by linarith
    have hmhi : 1 / 2 * (hi + lo) < hi := by linarith
    by_cases h1 : |((count lbls (1 / 2 * (hi + lo)) : ℕ) : ℚ) - (z : ℚ) - t| < tol * t
    · rw [if_pos h1] at h
      obtain rfl := Option.some.inj h
      exact ⟨hmlo, hmhi⟩
    · rw [if_neg h1] at h
      by_cases h2 : ((count lbls (1 / 2 * (hi + lo)) : ℕ) : ℚ) - (z : ℚ) < t
      · rw [if_pos h2] at h
        obtain ⟨ha, hb⟩ := ih (1 / 2 * (hi + lo)) hi t z tol w hmhi h
        exact ⟨lt_trans hmlo ha, hb⟩
      · rw [if_neg h2] at h
        obtain ⟨ha, hb⟩ := ih lo (1 / 2 * (hi + lo)) t z tol w hmlo h
        exact ⟨ha, lt_trans hb hmhi⟩

/-- Element access into a mapped range with a default. -/
theorem getD_range_map {α : Type} (f : ℕ → α) (d : α) (n k : ℕ) (hk : k < n) :
    ((List.range n).map f).getD k d = f k := by
  rw [List.getD_eq_getElem _ _ (by simpa using hk)]
  simp

/-- The truncated linspace sample equals the equal-integer-split formula. -/
theorem linspaceTrunc_eq (a d K j : ℕ) :
    linspaceTrunc a (a + d) K j = a + (j * d) / K := by
  unfold linspaceTrunc ratTrunc
  have hcast : ((a + d : ℕ) : ℚ) - (a : ℚ) = (d : ℚ) := by push_cast; ring
  rw [hcast]
  have hv : (0 : ℚ) ≤ (a : ℚ) + (j : ℚ) * ((d : ℚ) / (K : ℚ)) := by positivity
  rw [if_pos hv]
  have h1 : (a : ℚ) + (j : ℚ) * ((d : ℚ) / (K : ℚ))
      = ((a : ℤ) : ℚ) + ((j * d : ℕ) : ℤ) / ((K : ℕ) : ℚ) := by
    push_cast
    ring
  rw [h1, Int.floor_int_add, Rat.floor_intCast_div_natCast, ← Int.natCast_div]
  rw [show ((a : ℤ) + ((j * d / K : ℕ) : ℤ)) = ((a + j * d / K : ℕ) : ℤ) by push_cast; ring]
  rw [Int.toNat_natCast]

/-- C9 part: the number of chunks is the floor quotient plus one. -/
theorem nchunksOf_eq (lbls : List lbl) (wnmin wnmax : ℚ) (chunksize : ℕ) :
    nchunksOf lbls wnmin wnmax chunksize = sumNlines lbls wnmin wnmax / chunksize + 1 := by
  unfold nchunksOf ratTrunc
  have hv : (0 : ℚ) ≤ (sumNlines lbls wnmin wnmax : ℚ) / (chunksize : ℚ) := by positivity
  rw [if_pos hv]
  have h1 : ((sumNlines lbls wnmin wnmax : ℕ) : ℚ)
      = (((sumNlines lbls wnmin wnmax : ℕ) : ℤ) : ℚ) := by push_cast; ring
  rw [h1, Rat.floor_intCast_div_natCast, ← Int.natCast_div, Int.toNat_natCast]

/-! ### C8: monotone, non-overlapping, covering chunk plans -/

/-- One boundary step of the multi-file chunk plan preserves the plan
invariants: the new column is pointwise between the previous column and
the final column, and a nonzero entry witnesses that the boundary passed
the source's first wavenumber. -/
theorem newColumn_step (lbls : List lbl) (wnmax : ℚ) (colK : List ℕ)
    (HS : ∀ k, k < lbls.length →
      1 ≤ (lbls.getD k default).nlines ∧ sortedLbl (lbls.getD k default))
    (HK1 : ∀ k, k < lbls.length → colK.getD k 0 ≤ (lbls.getD k default).nlines - 1)
    (HK2 : ∀ k, k < lbls.length → ∀ v : ℚ,
      (lbls.getD k default).getwn ((lbls.getD k default).nlines - 1) ≤ v → v < wnmax →
      colK.getD k 0 = (lbls.getD k default).nlines - 1)
    (w wv : ℚ) (hww : w < wv) (hwmax : wv < wnmax) (prev : List ℕ)
    (hInv : ∀ k, k < lbls.length → prev.getD k 0 ≤ colK.getD k 0 ∧
      (prev.getD k 0 ≠ 0 → (lbls.getD k default).getwn 0 < w)) :
    ∀ k, k < lbls.length →
      prev.getD k 0 ≤ (newColumn lbls wv prev colK).getD k 0 ∧
      (newColumn lbls wv prev colK).getD k 0 ≤ colK.getD k 0 ∧
      ((newColumn lbls wv prev colK).getD k 0 ≠ 0 →
        (lbls.getD k default).getwn 0 < wv) := by
  intro k hk
  obtain ⟨hn, hsort⟩ := HS k hk
  obtain ⟨hprevK, hprev0⟩ := hInv k hk
  have hcol : (newColumn lbls wv prev colK).getD k 0
      = (lbls.getD k default).bs wv (prev.getD k 0) (colK.getD k 0) := by
    unfold newColumn
    exact getD_range_map _ _ _ _ hk
  rw [hcol]
  unfold lbl.bs
  refine ⟨?_, ?_, ?_⟩
  · by_cases hc1 : wv ≤ (lbls.getD k default).getwn 0
    · rw [bsAux_of_le_first _ _ _ _ _ hc1]
      by_contra hne
      have := hprev0 (by omega)
      linarith
    · push_neg at hc1
      by_cases hc2 : (lbls.getD k default).getwn ((lbls.getD k default).nlines - 1) ≤ wv
      · rw [bsAux_of_ge_last _ _ _ _ _ hc1 hc2]
        exact le_trans hprevK (HK1 k hk)
      · push_neg at hc2
        exact bsAux_ge_lo _ wv hc1 _ _ _ hprevK (HK1 k hk)
  · by_cases hc1 : wv ≤ (lbls.getD k default).getwn 0
    · rw [bsAux_of_le_first _ _ _ _ _ hc1]
      omega
    · push_neg at hc1
      by_cases hc2 : (lbls.getD k default).getwn ((lbls.getD k default).nlines - 1) ≤ wv
      · rw [bsAux_of_ge_last _ _ _ _ _ hc1 hc2, HK2 k hk wv hc2 hwmax]
      · push_neg at hc2
        exact bsAux_le_hi _ wv hc2 _ _ _ hprevK
  · intro hne
    exact bsAux_ne_zero _ wv _ _ _ hne

/-- Chain and bound invariants of the intermediate-boundary loop: starting
from a column satisfying the invariant, every produced plan prefix is a
pointwise-monotone chain whose columns all stay below the final column. -/
theorem midCols_chain (lbls : List lbl) (wnmax targetsize tol : ℚ) (colK : List ℕ) (fuel : ℕ)
    (HS : ∀ k, k < lbls.length →
      1 ≤ (lbls.getD k default).nlines ∧ sortedLbl (lbls.getD k default))
    (HK1 : ∀ k, k < lbls.length → colK.getD k 0 ≤ (lbls.getD k default).nlines - 1)
    (HK2 : ∀ k, k < lbls.length → ∀ v : ℚ,
      (lbls.getD k default).getwn ((lbls.getD k default).nlines - 1) ≤ v → v < wnmax →
      colK.getD k 0 = (lbls.getD k default).nlines - 1) :
    ∀ (n : ℕ) (w : ℚ) (prev : List ℕ) (mids : List (List ℕ)),
      w < wnmax →
      (∀ k, k < lbls.length → prev.getD k 0 ≤ colK.getD k 0 ∧
        (prev.getD k 0 ≠ 0 → (lbls.getD k default).getwn 0 < w)) →
      midCols lbls wnmax targetsize tol colK fuel w prev n = some mids →
      List.Chain' (fun c cv => ∀ k, k < lbls.length → c.getD k 0 ≤ cv.getD k 0)
        (prev :: mids) ∧
      (∀ c ∈ prev :: mids, ∀ k, k < lbls.length → c.getD k 0 ≤ colK.getD k 0) := by
  intro n
  induction n with
  | zero =>
    intro w prev mids hw hInv hmc
    rw [midCols] at hmc
    obtain rfl := Option.some.inj hmc
    refine ⟨List.chain'_singleton _, ?_⟩
    intro c hc k hk
    rw [List.mem_singleton] at hc
    exact hc ▸ (hInv k hk).1
  | succ n ih =>
    intro w prev mids hw hInv hmc
    rw [midCols] at hmc
    split at hmc
    · exact Option.noConfusion hmc
    · rename_i wv hbal
      split at hmc
      · exact Option.noConfusion hmc
      · rename_i rest hrec
        obtain rfl := Option.some.inj hmc
        obtain ⟨hlo, hhi⟩ := wnbalance_range lbls fuel w wnmax targetsize _ tol wv hw hbal
        have hstep := newColumn_step lbls wnmax colK HS HK1 HK2 w wv hlo hhi prev hInv
        obtain ⟨hchain, hmem⟩ := ih wv (newColumn lbls wv prev colK) rest hhi
          (fun k hk => ⟨(hstep k hk).2.1, (hstep k hk).2.2⟩) hrec
        refine ⟨List.chain'_cons.mpr ⟨fun k hk => (hstep k hk).1, hchain⟩, ?_⟩
        intro c hc k hk
        rcases List.mem_cons.mp hc with rfl | hcv
        · exact (hInv k hk).1
        · exact hmem c hcv k hk

/-- A pointwise-monotone chain of columns gives monotone boundary
sequences per source. -/
theorem boundary_mono (cols : List (List ℕ)) (L : ℕ)
    (h : List.Chain' (fun c cv => ∀ k, k < L → c.getD k 0 ≤ cv.getD k 0) cols)
    (k : ℕ) (hk : k < L) :
    ∀ n nv, n ≤ nv → nv < cols.length → colEntry cols n k ≤ colEntry cols nv k := by
  haveI : IsTrans (List ℕ) (fun c cv => ∀ k, k < L → c.getD k 0 ≤ cv.getD k 0) :=
    ⟨fun a b c hab hbc k hk => le_trans (hab k hk) (hbc k hk)⟩
  have hpw := List.chain'_iff_pairwise.mp h
  intro n nv hnn hnv
  rcases Nat.lt_or_ge n nv with hlt | hge
  · have hrel := List.pairwise_iff_get.mp hpw ⟨n, by omega⟩ ⟨nv, hnv⟩ hlt
    unfold colEntry
    rw [List.getD_eq_getElem _ _ (by omega : n < cols.length),
      List.getD_eq_getElem _ _ hnv]
    have h1 : cols.get ⟨n, by omega⟩ = cols[n] := List.get_eq_getElem _ _
    have h2 : cols.get ⟨nv, hnv⟩ = cols[nv] := List.get_eq_getElem _ _
    rw [h1, h2] at hrel
    exact hrel k hk
  · have hnn' : n = nv := by omega
    rw [hnn']

/-- The greatest index below a bound satisfying a decidable predicate that
holds at 0, together with its characterisation. -/
theorem findGreatest_adjacent (Q : ℕ → Prop) [DecidablePred Q] (b : ℕ) (h0 : Q 0) :
    Nat.findGreatest Q b ≤ b ∧ Q (Nat.findGreatest Q b) ∧
    (∀ j, Nat.findGreatest Q b < j → j ≤ b → ¬Q j) :=
  ⟨Nat.findGreatest_le _, Nat.findGreatest_spec (Nat.zero_le b) h0,
    fun _ h1 h2 => Nat.findGreatest_is_greatest h1 h2⟩

/-- A monotone boundary sequence of length at least 2 makes the half-open
chunks cover exactly the range from the first to the last boundary. -/
theorem boundary_cover (g : ℕ → ℕ) (len : ℕ) (h2 : 2 ≤ len)
    (mono : ∀ a b, a ≤ b → b < len → g a ≤ g b) (m : ℕ) :
    (∃ n, n + 1 < len ∧ g n ≤ m ∧ m < g (n + 1)) ↔ (g 0 ≤ m ∧ m < g (len - 1)) := by
  constructor
  · rintro ⟨n, hn, hgn, hgn1⟩
    exact ⟨le_trans (mono 0 n (by omega) (by omega)) hgn,
      lt_of_lt_of_le hgn1 (mono (n + 1) (len - 1) (by omega) (by omega))⟩
  · rintro ⟨hg0, hglast⟩
    haveI : DecidablePred (fun n => g n ≤ m) := fun n => Nat.decLe _ _
    obtain ⟨hb, hQ, hgr⟩ := findGreatest_adjacent (fun n => g n ≤ m) (len - 2) hg0
    refine ⟨Nat.findGreatest (fun n => g n ≤ m) (len - 2), by omega, hQ, ?_⟩
    by_cases hcase : Nat.findGreatest (fun n => g n ≤ m) (len - 2) + 1 ≤ len - 2
    · exact not_le.mp (hgr _ (Nat.lt_succ_self _) hcase)
    · have heq : Nat.findGreatest (fun n => g n ≤ m) (len - 2) + 1 = len - 1 := by omega
      rw [heq]
      exact hglast

/-- C8: every chunk plan the driver produces for a group of well-formed
(sorted, nonempty) sources on a window `wnmin < wnmax` has pointwise
monotone boundary columns `C[k,n] ≤ C[k,n+1]`; consequently, per source,
the half-open chunks are pairwise non-overlapping and union-cover exactly
the in-window index range `[C[k,0], C[k,K])` (repack.py lines 233-249). -/
theorem chunkPlan_monotone_cover (lbls : List lbl) (wnmin wnmax : ℚ) (chunksize fuel : ℕ)
    (hs : ∀ k, k < lbls.length →
      1 ≤ (lbls.getD k default).nlines ∧ sortedLbl (lbls.getD k default))
    (hw : wnmin < wnmax) (cols : List (List ℕ))
    (hplan : chunkPlan lbls wnmin wnmax chunksize fuel = some cols) :
    List.Chain' (fun c cv => ∀ k, k < lbls.length → c.getD k 0 ≤ cv.getD k 0) cols ∧
    (∀ k, k < lbls.length → ∀ m : ℕ,
      ((∃ n, n + 1 < cols.length ∧ colEntry cols n k ≤ m ∧ m < colEntry cols (n + 1) k) ↔
        (colEntry cols 0 k ≤ m ∧ m < colEntry cols (cols.length - 1) k))) ∧
    (∀ k, k < lbls.length → ∀ n nv m : ℕ, n < nv → nv + 1 < cols.length →
      ¬(colEntry cols n k ≤ m ∧ m < colEntry cols (n + 1) k ∧
        colEntry cols nv k ≤ m ∧ m < colEntry cols (nv + 1) k)) := by
  have hK1 : 1 ≤ nchunksOf lbls wnmin wnmax chunksize := by
    unfold nchunksOf
    omega
  have hmain : List.Chain'
      (fun c cv => ∀ k, k < lbls.length → c.getD k 0 ≤ cv.getD k 0) cols ∧
      2 ≤ cols.length := by
    simp only [chunkPlan] at hplan
    by_cases hone : lbls.length = 1
    · rw [if_pos hone] at hplan
      obtain rfl := Option.some.inj hplan
      constructor
      · rw [List.chain'_map, List.chain'_range_succ]
        intro j hj k hk
        rw [getD_range_map _ _ _ _ hk, getD_range_map _ _ _ _ hk,
          linspaceTrunc_eq, linspaceTrunc_eq]
        exact Nat.add_le_add_left
          (Nat.div_le_div_right (Nat.mul_le_mul_right _ (by omega))) _
      · simp only [List.length_map, List.length_range]
        omega
    · rw [if_neg hone] at hplan
      rw [Option.map_eq_some'] at hplan
      obtain ⟨mids, hmc, rfl⟩ := hplan
      have HK1 : ∀ k, k < lbls.length →
          ((List.range lbls.length).map (fun k =>
            istartOf (lbls.getD k default) wnmin +
              nlinesOf (lbls.getD k default) wnmin wnmax)).getD k 0
            ≤ (lbls.getD k default).nlines - 1 := by
        intro k hk
        rw [getD_range_map _ _ _ _ hk]
        have h1 := istart_le_last (lbls.getD k default) wnmin
        have h2 := iN_le_last (lbls.getD k default) wnmin wnmax
        unfold nlinesOf
        omega
      have HK2 : ∀ k, k < lbls.length → ∀ v : ℚ,
          (lbls.getD k default).getwn ((lbls.getD k default).nlines - 1) ≤ v → v < wnmax →
          ((List.range lbls.length).map (fun k =>
            istartOf (lbls.getD k default) wnmin +
              nlinesOf (lbls.getD k default) wnmin wnmax)).getD k 0
            = (lbls.getD k default).nlines - 1 := by
        intro k hk v hv1 hv2
        rw [getD_range_map _ _ _ _ hk]
        have h1 := istart_le_last (lbls.getD k default) wnmin
        have h2 := iN_eq_last (lbls.getD k default) wnmin wnmax (hs k hk).1 (hs k hk).2
          v hv1 hv2
        unfold nlinesOf
        omega
      have hInv0 : ∀ k, k < lbls.length →
          ((List.range lbls.length).map (fun k =>
            istartOf (lbls.getD k default) wnmin)).getD k 0
            ≤ ((List.range lbls.length).map (fun k =>
              istartOf (lbls.getD k default) wnmin +
                nlinesOf (lbls.getD k default) wnmin wnmax)).getD k 0 ∧
          (((List.range lbls.length).map (fun k =>
            istartOf (lbls.getD k default) wnmin)).getD k 0 ≠ 0 →
            (lbls.getD k default).getwn 0 < wnmin) := by
        intro k hk
        rw [getD_range_map _ _ _ _ hk, getD_range_map _ _ _ _ hk]
        exact ⟨by omega, fun hne => istart_ne_zero _ wnmin hne⟩
      obtain ⟨hchain, hmem⟩ := midCols_chain lbls wnmax
        ((sumNlines lbls wnmin wnmax : ℚ) / (nchunksOf lbls wnmin wnmax chunksize : ℚ))
        (1 / 100)
        ((List.range lbls.length).map (fun k =>
          istartOf (lbls.getD k default) wnmin +
            nlinesOf (lbls.getD k default) wnmin wnmax))
        fuel hs HK1 HK2 (nchunksOf lbls wnmin wnmax chunksize - 1) wnmin
        ((List.range lbls.length).map (fun k => istartOf (lbls.getD k default) wnmin))
        mids hw hInv0 hmc
      constructor
      · refine List.chain'_append.mpr ⟨hchain, List.chain'_singleton _, ?_⟩
        intro x hx y hy
        have hyK : y = (List.range lbls.length).map (fun k =>
            istartOf (lbls.getD k default) wnmin +
              nlinesOf (lbls.getD k default) wnmin wnmax) := by
          symm
          simpa using hy
        have hxl : x ∈ (((List.range lbls.length).map (fun k =>
            istartOf (lbls.getD k default) wnmin)) :: mids) := by
          rw [List.getLast?_eq_getLast _ (by simp)] at hx
          have hxe := Option.mem_some_iff.mp hx
          exact hxe ▸ List.getLast_mem _
        intro k hk
        rw [hyK]
        exact hmem x hxl k hk
      · simp only [List.length_append, List.length_cons, List.length_singleton]
        omega
  obtain ⟨hchain, hlen⟩ := hmain
  have hmono := boundary_mono cols lbls.length hchain
  refine ⟨hchain, ?_, ?_⟩
  · intro k hk m
    exact boundary_cover (fun n => colEntry cols n k) cols.length hlen
      (fun a b hab hb => hmono k hk a b hab hb) m
  · intro k hk n nv m hn hnv
    rintro ⟨h1, h2, h3, h4⟩
    have := hmono k hk (n + 1) nv (by omega) (by omega)
    omega

/-- C8 witness: the plan invariants instantiated on the concrete two-source
group, whose computed plan is `demoCols`. -/
theorem chunkPlan_monotone_cover_witness :
    List.Chain' (fun c cv => ∀ k, k < demoLbls.length → c.getD k 0 ≤ cv.getD k 0) demoCols ∧
    (∀ k, k < demoLbls.length → ∀ m : ℕ,
      ((∃ n, n + 1 < demoCols.length ∧ colEntry demoCols n k ≤ m ∧
          m < colEntry demoCols (n + 1) k) ↔
        (colEntry demoCols 0 k ≤ m ∧ m < colEntry demoCols (demoCols.length - 1) k))) ∧
    (∀ k, k < demoLbls.length → ∀ n nv m : ℕ, n < nv → nv + 1 < demoCols.length →
      ¬(colEntry demoCols n k ≤ m ∧ m < colEntry demoCols (n + 1) k ∧
        colEntry demoCols nv k ≤ m ∧ m < colEntry demoCols (nv + 1) k)) :=
  chunkPlan_monotone_cover demoLbls (1 / 2) (9 / 2) 3 20
    (by with_unfolding_all decide) (by with_unfolding_all decide) demoCols
    (by with_unfolding_all decide)

/-! ### C9: chunk count and the single-source equal-index split -/

/-- C9: the number of chunks is `K = ⌊N_total/chunksize⌋ + 1` with `N_total`
the group's in-window transition count, and a single-source group's
boundaries are the `K`-way equal integer split (the truncated linspace)
running from the first to the last in-window index
(repack.py lines 233-241). -/
theorem chunkPlan_single_source (l : lbl) (wnmin wnmax : ℚ) (chunksize fuel : ℕ)
    (hw : wnmin < wnmax) :
    nchunksOf [l] wnmin wnmax chunksize = sumNlines [l] wnmin wnmax / chunksize + 1 ∧
    istartOf l wnmin + nlinesOf l wnmin wnmax = iNOf l wnmin wnmax ∧
    chunkPlan [l] wnmin wnmax chunksize fuel =
      some ((List.range (nchunksOf [l] wnmin wnmax chunksize + 1)).map (fun j =>
        [istartOf l wnmin + (j * nlinesOf l wnmin wnmax) /
          nchunksOf [l] wnmin wnmax chunksize])) := by
  refine ⟨nchunksOf_eq [l] wnmin wnmax chunksize, ?_, ?_⟩
  · have h := istart_le_iN l wnmin wnmax hw
    unfold nlinesOf
    omega
  · simp only [chunkPlan]
    have hone : ([l] : List lbl).length = 1 := by simp
    rw [if_pos hone]
    congr 1
    apply List.map_congr_left
    intro j hj
    simp only [List.length_singleton, show List.range 1 = [0] from rfl, List.map_cons,
      List.map_nil]
    have hgetD : ([l] : List lbl).getD 0 default = l := rfl
    rw [hgetD, linspaceTrunc_eq]

/-- C9 witness: the single-source split evaluated on the demonstration
source over window `[1/2, 11/2]` with chunk size 2. -/
theorem chunkPlan_single_source_witness :
    nchunksOf [lblDemo] (1 / 2) (11 / 2) 2 = sumNlines [lblDemo] (1 / 2) (11 / 2) / 2 + 1 ∧
    istartOf lblDemo (1 / 2) + nlinesOf lblDemo (1 / 2) (11 / 2) = iNOf lblDemo (1 / 2) (11 / 2) ∧
    chunkPlan [lblDemo] (1 / 2) (11 / 2) 2 7 =
      some ((List.range (nchunksOf [lblDemo] (1 / 2) (11 / 2) 2 + 1)).map (fun j =>
        [istartOf lblDemo (1 / 2) + (j * nlinesOf lblDemo (1 / 2) (11 / 2)) /
          nchunksOf [lblDemo] (1 / 2) (11 / 2) 2])) :=
  chunkPlan_single_source lblDemo (1 / 2) (11 / 2) 2 7 (by with_unfolding_all decide)
